import Mathlib

/-!
Shallow embedding of the crypto-mcp discovery-and-ranking pipeline.

JavaScript numbers are embedded as rationals (`ℚ`).  JavaScript division by
zero produces `Infinity`/`NaN`; in `ℚ` division by zero is totalized to `0`.
No theorem below depends on the value a JavaScript computation produces on
such a degenerate path, only on which of `null` / `undefined` / a number the
function returns, which the embedding tracks exactly via `JsOut`.
-/

namespace CryptoMcp

/-- Outcome of a JS indicator function: `null` (the explicit insufficient-data
signal), `undefined` (reading a missing array element, propagated to the
return), or a number. -/
inductive JsOut where
  | null : JsOut
  | undef : JsOut
  | num : ℚ → JsOut
deriving DecidableEq, Repr

/-- Embedding of `calcEMA(arr, n)`: guard `arr.length < n` returns `null`;
otherwise seed `ema = arr[0]` and run `ema = arr[i]*k + ema*(1-k)` over every
subsequent element.  On an empty array the seed read `arr[0]` yields
`undefined`, the loop body never runs, and `undefined` is returned. -/
def calcEMA (arr : List ℚ) (n : Int) : JsOut :=
  if (arr.length : Int) < n then .null
  else
    match arr with
    | [] => .undef
    | a :: rest =>
      let k : ℚ := 2 / ((n : ℚ) + 1)
      .num (rest.foldl (fun e x => x * k + e * (1 - k)) a)

/-- Embedding of `sma(arr, n)`: guard `arr.length < n` returns `null`;
otherwise sum `arr[i]` for `i = arr.length - n .. arr.length - 1` and divide
by `n`.  For `n ≤ 0` the loop body never runs and the sum is `0`. -/
def sma (arr : List ℚ) (n : Int) : JsOut :=
  if (arr.length : Int) < n then .null
  else .num ((arr.drop ((arr.length : Int) - n).toNat).sum / (n : ℚ))

/-- Embedding of `rma(arr, n)`: guard `arr.length < n` returns `null`;
otherwise seed with the mean of the first `n` elements and fold
`val = alpha*arr[i] + (1-alpha)*val`, `alpha = 1/n`, over the rest. -/
def rma (arr : List ℚ) (n : Int) : JsOut :=
  if (arr.length : Int) < n then .null
  else
    let alpha : ℚ := 1 / (n : ℚ)
    let seed : ℚ := (arr.take n.toNat).sum / (n : ℚ)
    .num ((arr.drop n.toNat).foldl (fun v x => alpha * x + (1 - alpha) * v) seed)

lemma calcEMA_null_iff (arr : List ℚ) (n : Int) :
    calcEMA arr n = .null ↔ (arr.length : Int) < n := by
  unfold calcEMA
  split
  · simp [*]
  · rename_i h
    match arr with
    | [] => simp at h ⊢; omega
    | a :: rest => simp at h ⊢; omega

lemma sma_null_iff (arr : List ℚ) (n : Int) :
    sma arr n = .null ↔ (arr.length : Int) < n := by
  unfold sma
  split <;> simp [*]

lemma rma_null_iff (arr : List ℚ) (n : Int) :
    rma arr n = .null ↔ (arr.length : Int) < n := by
  unfold rma
  split <;> simp [*]

lemma rma_ne_undef (arr : List ℚ) (n : Int) : rma arr n ≠ .undef := by
  unfold rma
  split <;> simp

/-- One kline candle as used by the pipeline: `parseFloat(k[2])` (high),
`parseFloat(k[3])` (low), `parseFloat(k[4])` (close). -/
structure Candle where
  high : ℚ
  low : ℚ
  close : ℚ
deriving DecidableEq, Repr

def highsOf (ks : List Candle) : List ℚ := ks.map (·.high)

def lowsOf (ks : List Candle) : List ℚ := ks.map (·.low)

def closesOf (ks : List Candle) : List ℚ := ks.map (·.close)

/-- `closes[closes.length - 1] ?? null`. -/
def lastCloseOf (ks : List Candle) : Option ℚ := (closesOf ks).getLast?

/-- Body of the true-range loop at index `i`:
`hl = (highs[i] ?? 0) - (lows[i] ?? 0)`,
`hc = i > 0 ? Math.abs((highs[i] ?? 0) - (closes[i-1] ?? 0)) : 0`,
`lc = i > 0 ? Math.abs((lows[i] ?? 0) - (closes[i-1] ?? 0)) : 0`,
pushing `Math.max(hl, hc, lc)`. -/
def trueRangeAt (hs ls cs : List ℚ) (i : ℕ) : ℚ :=
  let hl := hs.getD i 0 - ls.getD i 0
  let hc := if 0 < i then |hs.getD i 0 - cs.getD (i - 1) 0| else 0
  let lc := if 0 < i then |ls.getD i 0 - cs.getD (i - 1) 0| else 0
  max hl (max hc lc)

/-- The `tr` array built by the loop `for (let i = 0; i < closes.length; i++)`. -/
def trueRangesOf (ks : List Candle) : List ℚ :=
  (List.range (closesOf ks).length).map
    (trueRangeAt (highsOf ks) (lowsOf ks) (closesOf ks))

/-- `const atr = rma(tr, 14)`. -/
def atrOf (ks : List Candle) : JsOut := rma (trueRangesOf ks) 14

/-- `const atrPct = atr && lastClose ? (atr / lastClose) * 100 : null`.
JS truthiness on a `number | null` operand: `null` is falsy and so is `0`,
hence the guard demands both operands present and nonzero. -/
def atrPctOf (ks : List Candle) : Option ℚ :=
  match atrOf ks, lastCloseOf ks with
  | .num a, some c => if a ≠ 0 ∧ c ≠ 0 then some (a / c * 100) else none
  | _, _ => none

/-- Trend direction; the JS value is `'up' | 'down' | null`, embedded as
`Option Trend`. -/
inductive Trend where
  | up : Trend
  | down : Trend
deriving DecidableEq, Repr

inductive Rating where
  | strong_up : Rating
  | up : Rating
  | neutral : Rating
  | down : Rating
  | strong_down : Rating
deriving DecidableEq, Repr

/-- `x !== null && x > c` for `x : number | null`. -/
def jsGtNum (x : Option ℚ) (c : ℚ) : Bool :=
  match x with
  | some p => decide (p > c)
  | none => false

/-- `x !== null && x < c` for `x : number | null`. -/
def jsLtNum (x : Option ℚ) (c : ℚ) : Bool :=
  match x with
  | some p => decide (p < c)
  | none => false

/-- Embedding of the rating assignment:
`let rating = 'neutral';`
`if (trend === 'up') rating = pct24h !== null && pct24h > 2 ? 'strong_up' : (pct24h !== null && pct24h > 1 ? 'up' : 'neutral');`
`if (trend === 'down') rating = pct24h !== null && pct24h < -2 ? 'strong_down' : (pct24h !== null && pct24h < -1 ? 'down' : 'neutral');`
The second `if` overwrites the first's result only when trend is down. -/
def rate (trend : Option Trend) (pct24h : Option ℚ) : Rating :=
  let r0 : Rating := .neutral
  let r1 : Rating :=
    if trend = some .up then
      (if jsGtNum pct24h 2 then .strong_up
       else if jsGtNum pct24h 1 then .up else .neutral)
    else r0
  if trend = some .down then
    (if jsLtNum pct24h (-2) then .strong_down
     else if jsLtNum pct24h (-1) then .down else .neutral)
  else r1

/-- Rating as the specification states it: a case split on trend, with an
absent `pct24h` failing every threshold inside the active branch. -/
def rateSpec (trend : Option Trend) (pct24h : Option ℚ) : Rating :=
  match trend with
  | some .up =>
    match pct24h with
    | some p => if p > 2 then .strong_up else if p > 1 then .up else .neutral
    | none => .neutral
  | some .down =>
    match pct24h with
    | some p => if p < -2 then .strong_down else if p < -1 then .down else .neutral
    | none => .neutral
  | none => .neutral

/-- The slim provenance block `{ market_cap, percent_change_24h, rank }`
captured from the listings item; each field may be absent in the source JSON. -/
structure CmcSlim where
  market_cap : Option ℚ
  percent_change_24h : Option ℚ
  rank : Option ℚ
deriving DecidableEq, Repr

/-- One entry of the `summaries` array assembled per asset. -/
structure Summary where
  symbol : String
  price : Option ℚ
  pct24h : Option ℚ
  vol24h : Option ℚ
  atrPct : Option ℚ
  trend : Option Trend
  rating : Rating
  cmc : Option CmcSlim
deriving DecidableEq, Repr

/-- `ratingScore`: `{ strong_up: 4, up: 3, neutral: 2, down: 1, strong_down: 0 }[r]`. -/
def ratingScore : Rating → ℕ
  | .strong_up => 4
  | .up => 3
  | .neutral => 2
  | .down => 1
  | .strong_down => 0

/-- Sign of `aAtr - bAtr` where an absent `atrPct` stands for
`Number.POSITIVE_INFINITY`; `Ordering.eq` corresponds to `aAtr === bAtr`,
i.e. the comparator's `!==` guard failing. -/
def compareAtr : Option ℚ → Option ℚ → Ordering
  | none, none => .eq
  | none, some _ => .gt
  | some _, none => .lt
  | some a, some b => compare a b

/-- `a.vol24h ?? 0`. -/
def volKey (s : Summary) : ℚ := s.vol24h.getD 0

/-- `a.pct24h !== null ? Math.abs(a.pct24h) : 0`. -/
def absPctKey (s : Summary) : ℚ :=
  match s.pct24h with
  | some q => |q|
  | none => 0

/-- The `discover-top` comparator, as the sign (`Ordering`) of the number the
JS function returns: `rb - ra` if ratings differ, else `aAtr - bAtr` if the
(∞-defaulted) ATR percents differ, else `mb - ma` on absolute 24h change.
There is no volume key in this comparator. -/
def cmpTop (a b : Summary) : Ordering :=
  match compare (ratingScore b.rating) (ratingScore a.rating) with
  | .eq =>
    match compareAtr a.atrPct b.atrPct with
    | .eq => compare (absPctKey b) (absPctKey a)
    | o => o
  | o => o

/-- The `discover-pick` comparator `cmp`, parameterized by the (lowercased)
strategy string: rating first; for `strong_up_high_vol` volume then ATR;
otherwise (the `strong_up_low_atr` default branch) ATR then volume; finally
absolute 24h change. -/
def cmpPick (strategy : String) (a b : Summary) : Ordering :=
  match compare (ratingScore b.rating) (ratingScore a.rating) with
  | .eq =>
    if strategy = "strong_up_high_vol" then
      match compare (volKey b) (volKey a) with
      | .eq =>
        match compareAtr a.atrPct b.atrPct with
        | .eq => compare (absPctKey b) (absPctKey a)
        | o => o
      | o => o
    else
      match compareAtr a.atrPct b.atrPct with
      | .eq =>
        match compare (volKey b) (volKey a) with
        | .eq => compare (absPctKey b) (absPctKey a)
        | o => o
      | o => o
  | o => o

/-- Four-key lexicographic comparison as the specification words it for the
default strategy: rating score descending, then atrPercent ascending with an
absent value as `+∞`, then 24h volume descending, then absolute 24h percent
change descending — each pair ordered by the first key on which it differs. -/
def specCmpLowAtr (a b : Summary) : Ordering :=
  (compare (ratingScore b.rating) (ratingScore a.rating)).then
    ((compareAtr a.atrPct b.atrPct).then
      ((compare (volKey b) (volKey a)).then
        (compare (absPctKey b) (absPctKey a))))

/-- Three-key lexicographic comparison: rating score descending, atrPercent
ascending (absent as `+∞`), absolute 24h percent change descending. -/
def specCmpTop (a b : Summary) : Ordering :=
  (compare (ratingScore b.rating) (ratingScore a.rating)).then
    ((compareAtr a.atrPct b.atrPct).then
      (compare (absPctKey b) (absPctKey a)))

/-- The `discover-pick` filter predicate:
`rankOk = s.cmc?.rank !== undefined ? (s.cmc!.rank! <= rankMax) : false`,
`atrOk = s.atrPct !== null ? (s.atrPct! <= atrPctMax) : false`,
keep iff `rankOk && atrOk`. -/
def passFilter (rankMax atrPctMax : ℚ) (s : Summary) : Bool :=
  let rankOk : Bool :=
    match s.cmc with
    | some c =>
      match c.rank with
      | some r => decide (r ≤ rankMax)
      | none => false
    | none => false
  let atrOk : Bool :=
    match s.atrPct with
    | some a => decide (a ≤ atrPctMax)
    | none => false
  rankOk && atrOk

/-- A request parameter record, as an ordered list of name/value pairs.
A JS object has no duplicate keys; theorems that need this carry a `Nodup`
hypothesis on the names. -/
abbrev Params := List (String × String)

/-- Key order used by `Object.keys(params).sort()`. -/
def leParamKey (a b : String × String) : Prop := a.1 ≤ b.1

instance : DecidableRel leParamKey := fun a b =>
  inferInstanceAs (Decidable (a.1 ≤ b.1))

instance : IsTotal (String × String) leParamKey :=
  ⟨fun a b => le_total a.1 b.1⟩

instance : IsTrans (String × String) leParamKey :=
  ⟨fun _ _ _ h h' => le_trans h h'⟩

/-- The parameters re-assembled in sorted key order, as `buildCacheKey` does
with `Object.keys(params).sort().reduce(...)`. -/
def sortParams (ps : Params) : Params := ps.insertionSort leParamKey

/-- The cache key string built from the endpoint, a bar separator and the
JSON encoding of the key-sorted parameters, embedded as the pair that
string injectively encodes. -/
structure CacheKey where
  endpoint : String
  sorted : Params
deriving DecidableEq, Repr

def buildCacheKey (endpoint : String) (ps : Params) : CacheKey :=
  ⟨endpoint, sortParams ps⟩

/-- `apiCache : Map<string, { ts, data }>`, embedded as an association list
with at most one live binding per key (lookup returns the first match). -/
abbrev Cache (α : Type) := List (CacheKey × Int × α)

def cacheGet {α : Type} (c : Cache α) (k : CacheKey) : Option (Int × α) :=
  (c.find? (fun e => decide (e.1 = k))).map (·.2)

/-- `Map.set`: replace the binding in place when the key is present,
otherwise append a new one. -/
def cacheSet {α : Type} (c : Cache α) (k : CacheKey) (v : Int × α) : Cache α :=
  if c.any (fun e => decide (e.1 = k)) then
    c.map (fun e => if e.1 = k then (k, v) else e)
  else c ++ [(k, v)]

/-- Result of one `makeApiRequest` call: the returned value, the cache state
after the call, and whether a network fetch was issued. -/
structure ApiResult (α : Type) where
  result : Option α
  cache : Cache α
  fetched : Bool
deriving DecidableEq, Repr

/-- Embedding of `makeApiRequest(endpoint, params)`.  The network is
abstracted by `fetchResult`: `some json` for a fetch that returns a success
status with a well-formed body, `none` for every failure path (non-ok status,
network error, or a body `response.json()` rejects — all are caught and
yield `null` with the cache untouched).  A fresh cached entry
(`now - cached.ts < CACHE_TTL_MS`) is returned without fetching. -/
def makeApiRequest {α : Type} (ttl : Int) (c : Cache α) (now : Int)
    (endpoint : String) (ps : Params) (fetchResult : Option α) : ApiResult α :=
  let key := buildCacheKey endpoint ps
  let doFetch : ApiResult α :=
    match fetchResult with
    | some json => ⟨some json, cacheSet c key (now, json), true⟩
    | none => ⟨none, c, true⟩
  match cacheGet c key with
  | some td => if now - td.1 < ttl then ⟨some td.2, c, false⟩ else doFetch
  | none => doFetch

/-- Response shape of the ranked-listing endpoint: a `data` field that may be
absent, holding the candidate items. -/
structure ListingsResp (α : Type) where
  data : Option (List α)
deriving DecidableEq, Repr

/-- `const data = listings?.data ?? []`. -/
def listingsData {α : Type} (r : Option (ListingsResp α)) : List α :=
  match r with
  | some l => l.data.getD []
  | none => []

/-- Claim C4: the rating is a pure function of trend and 24h percent change —
trend up gives strong_up above 2, up above 1, else neutral; trend down gives
strong_down below −2, down below −1, else neutral; an undefined trend, or an
absent pct24h inside either branch, gives neutral. -/
theorem rating_pure_function (t : Option Trend) (p : Option ℚ) :
    rate t p = rateSpec t p := by
  rcases t with _ | dir
  · rcases p with _ | q <;> simp [rate, rateSpec]
  · rcases dir
    case up =>
      rcases p with _ | q
      · simp [rate, rateSpec, jsGtNum]
      · simp only [rate, rateSpec, jsGtNum]
        split_ifs <;> simp_all
    case down =>
      rcases p with _ | q
      · simp [rate, rateSpec, jsLtNum]
      · simp only [rate, rateSpec, jsLtNum]
        split_ifs <;> simp_all

/-- Claim C6: `calcEMA` returns the absent value exactly when the series is
shorter than the period, and otherwise seeds with the first element and runs
the recurrence `ema = x*k + ema*(1-k)`, `k = 2/(period+1)`, over every
remaining element of the entire series. -/
theorem ema_full_recurrence (arr : List ℚ) (n : Int) :
    (calcEMA arr n = .null ↔ (arr.length : Int) < n) ∧
    (∀ a rest, arr = a :: rest → n ≤ (arr.length : Int) →
      calcEMA arr n =
        .num (rest.foldl
          (fun e x => x * (2 / ((n : ℚ) + 1)) + e * (1 - 2 / ((n : ℚ) + 1))) a)) := by
  refine ⟨calcEMA_null_iff arr n, ?_⟩
  rintro a rest rfl h
  unfold calcEMA
  rw [if_neg (by omega)]

/-- Concrete instance of `ema_full_recurrence` at series `[1, 2]`, period 1. -/
theorem ema_full_recurrence_check :
    calcEMA [1, 2] 1 =
      .num ([(2 : ℚ)].foldl
        (fun e x => x * (2 / (((1 : Int) : ℚ) + 1)) + e * (1 - 2 / (((1 : Int) : ℚ) + 1))) 1) :=
  (ema_full_recurrence [1, 2] 1).2 1 [2] rfl (by decide)

/-- Claim C7: a summary passes the pick-variant filter iff its provenance
rank is present and at most `rankMax` and its atrPercent is present and at
most `atrPctMax`; absence of either always excludes it. -/
theorem pick_filter_iff (rankMax atrPctMax : ℚ) (s : Summary) :
    passFilter rankMax atrPctMax s = true ↔
      ((∃ r, s.cmc.bind (fun c => c.rank) = some r ∧ r ≤ rankMax) ∧
       (∃ a, s.atrPct = some a ∧ a ≤ atrPctMax)) := by
  rcases s with ⟨sym, pr, pc, vol, atr, tr, rat, cmc⟩
  simp only [passFilter]
  rcases cmc with _ | c
  · simp
  · rcases c with ⟨mc, pch, rk⟩
    rcases rk with _ | r <;> rcases atr with _ | a <;> simp [Option.bind]

/-- Claim C10: the insufficient-data guard of `calcEMA`, `sma` and `rma`
fires exactly when the series is shorter than the period; hence for a
non-positive period none of them returns the absent value, and on the empty
series `calcEMA` falls through to reading the first element of an empty
array, returning `undefined` rather than reporting insufficient data. -/
theorem guard_fires_iff (arr : List ℚ) (n : Int) :
    ((calcEMA arr n = .null ↔ (arr.length : Int) < n) ∧
     (sma arr n = .null ↔ (arr.length : Int) < n) ∧
     (rma arr n = .null ↔ (arr.length : Int) < n)) ∧
    (n ≤ 0 →
      calcEMA arr n ≠ .null ∧ sma arr n ≠ .null ∧ rma arr n ≠ .null ∧
      calcEMA ([] : List ℚ) n = .undef) := by
  refine ⟨⟨calcEMA_null_iff arr n, sma_null_iff arr n, rma_null_iff arr n⟩, ?_⟩
  intro hn
  refine ⟨?_, ?_, ?_, ?_⟩
  · rw [Ne, calcEMA_null_iff]; omega
  · rw [Ne, sma_null_iff]; omega
  · rw [Ne, rma_null_iff]; omega
  · unfold calcEMA
    rw [if_neg (by simp; omega)]

/-- Concrete instance of `guard_fires_iff` at the empty series, period 0. -/
theorem guard_fires_iff_check :
    calcEMA ([] : List ℚ) 0 ≠ .null ∧ sma ([] : List ℚ) 0 ≠ .null ∧
    rma ([] : List ℚ) 0 ≠ .null ∧ calcEMA ([] : List ℚ) 0 = .undef :=
  (guard_fires_iff [] 0).2 (by decide)

lemma trueRangesOf_replicate (n : ℕ) (k : Candle) (v : ℚ)
    (h0 : max (k.high - k.low) (max 0 0) = v)
    (h1 : max (k.high - k.low) (max |k.high - k.close| |k.low - k.close|) = v) :
    trueRangesOf (List.replicate n k) = List.replicate n v := by
  rw [List.eq_replicate_iff]
  refine ⟨by simp [trueRangesOf, closesOf], ?_⟩
  intro b hb
  simp only [trueRangesOf, closesOf, List.map_replicate, List.length_replicate,
    List.mem_map, List.mem_range] at hb
  obtain ⟨i, hi, rfl⟩ := hb
  have hi' : i - 1 < n := by omega
  unfold trueRangeAt
  simp only [highsOf, lowsOf, closesOf, List.map_replicate,
    List.getD_eq_getElem?_getD, List.getElem?_replicate, hi, hi', if_true]
  rcases Nat.eq_zero_or_pos i with rfl | hpos
  · simpa using h0
  · simp only [hpos, if_true, Option.getD_some]
    exact h1

lemma rma_replicate_self (n : ℕ) (q : ℚ) (hn : 1 ≤ n) :
    rma (List.replicate n q) ((n : ℕ) : Int) = .num q := by
  unfold rma
  rw [if_neg (by simp)]
  simp only [Int.toNat_natCast, List.take_replicate, Nat.min_self,
    List.drop_replicate, Nat.sub_self, List.replicate_zero, List.foldl_nil,
    List.sum_replicate, nsmul_eq_mul]
  congr 1
  exact mul_div_cancel_left₀ q (Nat.cast_ne_zero.mpr (by omega))

lemma lastCloseOf_replicate (n : ℕ) (k : Candle) (hn : 1 ≤ n) :
    lastCloseOf (List.replicate n k) = some k.close := by
  unfold lastCloseOf closesOf
  rw [List.map_replicate, List.getLast?_replicate]
  simp
  omega

/-- Claim C2 counterexample: a 14-candle series that never moves has a
defined ATR equal to 0 and a nonzero last close, yet `atrPct` is absent —
the `atr && lastClose` truthiness guard rejects a zero ATR. -/
theorem atr_percent_zero_atr_cex :
    atrOf (List.replicate 14 ⟨5, 5, 5⟩) = .num 0 ∧
    lastCloseOf (List.replicate 14 ⟨5, 5, 5⟩) = some 5 ∧
    atrPctOf (List.replicate 14 ⟨5, 5, 5⟩) = none := by
  have htr : trueRangesOf (List.replicate 14 ⟨5, 5, 5⟩) = List.replicate 14 0 :=
    trueRangesOf_replicate 14 ⟨5, 5, 5⟩ 0 (by norm_num) (by norm_num)
  have hatr : atrOf (List.replicate 14 ⟨5, 5, 5⟩) = .num 0 := by
    rw [atrOf, htr, show (14 : Int) = ((14 : ℕ) : Int) by norm_num]
    exact rma_replicate_self 14 0 (by norm_num)
  have hlc : lastCloseOf (List.replicate 14 (⟨5, 5, 5⟩ : Candle)) = some 5 :=
    lastCloseOf_replicate 14 ⟨5, 5, 5⟩ (by norm_num)
  refine ⟨hatr, hlc, ?_⟩
  unfold atrPctOf
  rw [hatr, hlc]
  simp

/-- Claim C2 as amended: `atrPct` equals `ATR / lastClose * 100` and is
absent exactly when ATR is absent or zero, or the last close is absent or
zero. -/
theorem atr_percent_amended (ks : List Candle) :
    (atrPctOf ks = none ↔
      atrOf ks = .null ∨ atrOf ks = .num 0 ∨
      lastCloseOf ks = none ∨ lastCloseOf ks = some 0) ∧
    (∀ a c, atrOf ks = .num a → lastCloseOf ks = some c → a ≠ 0 → c ≠ 0 →
      atrPctOf ks = some (a / c * 100)) := by
  constructor
  · unfold atrPctOf
    cases h1 : atrOf ks with
    | null => simp [h1]
    | undef => exact absurd h1 (rma_ne_undef _ _)
    | num a =>
      cases h2 : lastCloseOf ks with
      | none => simp [h1, h2]
      | some c =>
        simp only [h1, h2]
        split_ifs with h
        · simp only [reduceCtorEq, false_iff]
          push_neg
          refine ⟨by simp, by simp [h.1], by simp, by simp [h.2]⟩
        · push_neg at h
          by_cases ha : a = 0
          · simp [ha]
          · simp [ha, h ha]
  · intro a c h1 h2 ha hc
    unfold atrPctOf
    rw [h1, h2]
    simp [ha, hc]

/-- Concrete instance of `atr_percent_amended`: 14 identical candles with
high 6, low 4, close 5 give ATR 2, last close 5 and `atrPct = 40`. -/
theorem atr_percent_amended_check :
    atrPctOf (List.replicate 14 ⟨6, 4, 5⟩) = some ((2 : ℚ) / 5 * 100) :=
  (atr_percent_amended (List.replicate 14 ⟨6, 4, 5⟩)).2 2 5
    (by
      rw [atrOf, trueRangesOf_replicate 14 ⟨6, 4, 5⟩ 2 (by norm_num) (by norm_num),
        show (14 : Int) = ((14 : ℕ) : Int) by norm_num]
      exact rma_replicate_self 14 2 (by norm_num))
    (lastCloseOf_replicate 14 ⟨6, 4, 5⟩ (by norm_num))
    (by norm_num) (by norm_num)

/-- Claim C5 counterexample: a single candle whose recorded high (0) lies
below its low (1) has `high − low = −1`, but the true-range entry at index 0
is `Math.max(high − low, 0, 0) = 0`, not `high − low`. -/
theorem true_range_index0_cex :
    trueRangesOf [⟨0, 1, 5⟩] = [0] ∧ ((0 : ℚ) - 1 ≠ 0) := by
  constructor
  · have hr : List.range 1 = [0] := by decide
    unfold trueRangesOf trueRangeAt closesOf highsOf lowsOf
    simp [hr]
  · norm_num

/-- Claim C5 as amended: the true-range series has the length of the price
series; its entry at index 0 is `max (high[0] − low[0]) 0` (which is
`high[0] − low[0]` whenever `high[0] ≥ low[0]`), and at every later index it
is `max(high[i]−low[i], |high[i]−closePrev|, |low[i]−closePrev|)`. -/
theorem true_range_series_amended (ks : List Candle) :
    (trueRangesOf ks).length = ks.length ∧
    (∀ k rest, ks = k :: rest →
      (trueRangesOf ks)[0]? = some (max (k.high - k.low) 0)) ∧
    (∀ i k kprev, 0 < i → ks[i]? = some k → ks[i - 1]? = some kprev →
      (trueRangesOf ks)[i]? =
        some (max (k.high - k.low)
          (max |k.high - kprev.close| |k.low - kprev.close|))) := by
  refine ⟨by simp [trueRangesOf, closesOf], ?_, ?_⟩
  · rintro k rest rfl
    simp [trueRangesOf, trueRangeAt, closesOf, highsOf, lowsOf]
  · intro i k kprev hi h1 h2
    have hlen : i < ks.length := by
      by_contra hge
      rw [List.getElem?_eq_none (by omega)] at h1
      exact Option.noConfusion h1
    have hh : (highsOf ks)[i]? = some k.high := by
      rw [highsOf, List.getElem?_map, h1]
      rfl
    have hlo : (lowsOf ks)[i]? = some k.low := by
      rw [lowsOf, List.getElem?_map, h1]
      rfl
    have hcp : (closesOf ks)[i - 1]? = some kprev.close := by
      rw [closesOf, List.getElem?_map, h2]
      rfl
    have hlen' : i < (closesOf ks).length := by simpa [closesOf] using hlen
    rw [trueRangesOf, List.getElem?_map, List.getElem?_range hlen']
    unfold trueRangeAt
    simp [hh, hlo, hcp, hi]

/-- Concrete instance of `true_range_series_amended` at a two-candle series. -/
theorem true_range_series_amended_check :
    (trueRangesOf [⟨3, 1, 2⟩, ⟨5, 4, 4⟩])[1]? =
      some (max ((5 : ℚ) - 4) (max |(5 : ℚ) - 2| |(4 : ℚ) - 2|)) :=
  (true_range_series_amended [⟨3, 1, 2⟩, ⟨5, 4, 4⟩]).2.2 1 ⟨5, 4, 4⟩ ⟨3, 1, 2⟩
    (by decide) (by decide) (by decide)

/-- First summary of the C1 counterexample pair: rating, atrPercent and
absolute 24h change all agree with `c1CexB`; only the 24h volume differs. -/
def c1CexA : Summary :=
  ⟨"AAAUSDT", none, some 1, some 10, some 1, some .up, .neutral, none⟩

/-- Second summary of the C1 counterexample pair, with the larger volume. -/
def c1CexB : Summary :=
  ⟨"BBBUSDT", none, some 1, some 20, some 1, some .up, .neutral, none⟩

/-- Claim C1 counterexample: on two summaries that agree on rating,
atrPercent and absolute 24h change and differ only in 24h volume, the
claimed four-key comparison orders the higher-volume entry first (`gt`),
but the `discover-top` comparator has no volume key and reports them
equal — the two variants do not sort by the same comparison. -/
theorem discover_top_sort_cex :
    cmpTop c1CexA c1CexB = .eq ∧ specCmpLowAtr c1CexA c1CexB = .gt := by
  have h22 : compare (2 : ℕ) 2 = .eq := by decide
  have h11 : compare (1 : ℚ) 1 = .eq := compare_eq_iff_eq.mpr rfl
  have h2010 : compare (20 : ℚ) 10 = .gt := compare_gt_iff_gt.mpr (by norm_num)
  constructor
  · show cmpTop c1CexA c1CexB = .eq
    unfold cmpTop c1CexA c1CexB ratingScore compareAtr absPctKey
    norm_num [h22, h11]
  · show specCmpLowAtr c1CexA c1CexB = .gt
    unfold specCmpLowAtr c1CexA c1CexB ratingScore compareAtr absPctKey volKey
    norm_num [h22, h11, h2010, Ordering.then]

/-- Claim C1 as amended: under the default strategy, the `discover-pick`
comparator is the four-key lexicographic comparison (rating score
descending, atrPercent ascending with absent sorting last, 24h volume
descending with absent as 0, absolute 24h change descending with absent as
0), each pair ordered by the first key on which it differs; the
`discover-top` comparator is the same comparison without the volume key. -/
theorem default_strategy_sort_amended (a b : Summary) :
    cmpPick "strong_up_low_atr" a b = specCmpLowAtr a b ∧
    cmpTop a b = specCmpTop a b := by
  constructor
  · unfold cmpPick specCmpLowAtr
    rw [if_neg (by decide)]
    cases compare (ratingScore b.rating) (ratingScore a.rating) <;>
      cases compareAtr a.atrPct b.atrPct <;>
        cases compare (volKey b) (volKey a) <;>
          simp [Ordering.then]
  · unfold cmpTop specCmpTop
    cases compare (ratingScore b.rating) (ratingScore a.rating) <;>
      cases compareAtr a.atrPct b.atrPct <;>
        simp [Ordering.then]

lemma foldl_convex_bounded (alpha lo hi : ℚ) (h0 : 0 ≤ alpha) (h1 : alpha ≤ 1) :
    ∀ (l : List ℚ) (v : ℚ), lo ≤ v → v ≤ hi → (∀ x ∈ l, lo ≤ x ∧ x ≤ hi) →
      lo ≤ l.foldl (fun w x => alpha * x + (1 - alpha) * w) v ∧
      l.foldl (fun w x => alpha * x + (1 - alpha) * w) v ≤ hi := by
  intro l
  induction l with
  | nil => intro v hv1 hv2 _; exact ⟨hv1, hv2⟩
  | cons x xs ih =>
    intro v hv1 hv2 hb
    have hx := hb x (List.mem_cons_self x xs)
    have hstep1 : lo ≤ alpha * x + (1 - alpha) * v := by
      nlinarith [mul_le_mul_of_nonneg_left hx.1 h0,
        mul_le_mul_of_nonneg_left hv1 (sub_nonneg.mpr h1)]
    have hstep2 : alpha * x + (1 - alpha) * v ≤ hi := by
      nlinarith [mul_le_mul_of_nonneg_left hx.2 h0,
        mul_le_mul_of_nonneg_left hv2 (sub_nonneg.mpr h1)]
    exact (List.foldl_cons ..) ▸
      ih (alpha * x + (1 - alpha) * v) hstep1 hstep2
        (fun y hy => hb y (List.mem_cons_of_mem x hy))

/-- Claim C9: every value the Wilder smoothing produces — the value reached
after consuming any prefix of the series, the seed included — lies between
any lower and upper bound of the inputs seen so far; instantiating the
bounds with the minimum and maximum of the consumed prefix gives the
claim's statement. -/
theorem rma_bounded (arr : List ℚ) (p : ℕ) (hp : 1 ≤ p) (m : ℕ)
    (hpm : p ≤ m) (hm : m ≤ arr.length) (lo hi : ℚ)
    (hb : ∀ x ∈ arr.take m, lo ≤ x ∧ x ≤ hi) :
    ∃ q, rma (arr.take m) ((p : ℕ) : Int) = .num q ∧ lo ≤ q ∧ q ≤ hi := by
  have hplen : (arr.take m).length = m := by
    rw [List.length_take]
    omega
  have hppos : (0 : ℚ) < (p : ℚ) := by
    exact_mod_cast Nat.pos_of_ne_zero (by omega)
  unfold rma
  rw [if_neg (by push_cast [hplen]; omega)]
  simp only [Int.toNat_natCast]
  refine ⟨_, rfl, ?_⟩
  have hseedlen : ((arr.take m).take p).length = p := by
    rw [List.length_take]
    omega
  have hbseed : ∀ x ∈ (arr.take m).take p, lo ≤ x ∧ x ≤ hi :=
    fun x hx => hb x (List.mem_of_mem_take hx)
  have hsum_le : ((arr.take m).take p).sum ≤ (p : ℚ) * hi := by
    have := List.sum_le_card_nsmul ((arr.take m).take p) hi
      (fun x hx => (hbseed x hx).2)
    rwa [hseedlen, nsmul_eq_mul] at this
  have hle_sum : (p : ℚ) * lo ≤ ((arr.take m).take p).sum := by
    have := List.card_nsmul_le_sum ((arr.take m).take p) lo
      (fun x hx => (hbseed x hx).1)
    rwa [hseedlen, nsmul_eq_mul] at this
  have hseed1 : lo ≤ ((arr.take m).take p).sum / (p : ℚ) := by
    rw [le_div_iff₀ hppos]
    linarith [hle_sum]
  have hseed2 : ((arr.take m).take p).sum / (p : ℚ) ≤ hi := by
    rw [div_le_iff₀ hppos]
    linarith [hsum_le]
  exact foldl_convex_bounded (1 / (p : ℚ)) lo hi
    (by positivity) (by rw [div_le_one hppos]; exact_mod_cast hp)
    ((arr.take m).drop p) _ hseed1 hseed2
    (fun y hy => hb y (List.mem_of_mem_drop hy))

/-- Concrete instance of `rma_bounded`: series `[1, 2]`, period 1,
prefix length 2, bounds 1 and 2. -/
theorem rma_bounded_check :
    ∃ q, rma ([(1 : ℚ), 2].take 2) ((1 : ℕ) : Int) = .num q ∧ 1 ≤ q ∧ q ≤ 2 :=
  rma_bounded [1, 2] 1 (by decide) 2 (by decide) (by decide) 1 2
    (by
      intro x hx
      rw [show [(1 : ℚ), 2].take 2 = [1, 2] from by decide] at hx
      simp only [List.mem_cons, List.mem_singleton] at hx
      rcases hx with rfl | rfl | h
      · norm_num
      · norm_num
      · simp at h)

instance : IsAntisymm (String × String) (fun a b => a.1 < b.1) :=
  ⟨fun _ _ h1 h2 => absurd (h1.trans h2) (lt_irrefl _)⟩

lemma pairwise_key_lt {l : Params} (hs : l.Pairwise leParamKey)
    (hn : (l.map Prod.fst).Nodup) : l.Pairwise (fun a b => a.1 < b.1) := by
  have hne : l.Pairwise (fun a b => a.1 ≠ b.1) := List.pairwise_map.mp hn
  exact (hs.and hne).imp (fun h => lt_of_le_of_ne h.1 h.2)

/-- Two parameter records that are permutations of each other with distinct
names canonicalize to the same sorted list, hence the same cache key. -/
lemma sortParams_eq_of_perm (p1 p2 : Params) (hperm : p1.Perm p2)
    (hnodup : (p1.map Prod.fst).Nodup) : sortParams p1 = sortParams p2 := by
  have hperm1 : (sortParams p1).Perm p1 := List.perm_insertionSort leParamKey p1
  have hperm2 : (sortParams p2).Perm p2 := List.perm_insertionSort leParamKey p2
  have hpp : (sortParams p1).Perm (sortParams p2) :=
    hperm1.trans (hperm.trans hperm2.symm)
  have hn1 : ((sortParams p1).map Prod.fst).Nodup :=
    ((hperm1.map Prod.fst).nodup_iff).mpr hnodup
  have hn2 : ((sortParams p2).map Prod.fst).Nodup :=
    ((hperm2.map Prod.fst).nodup_iff).mpr
      (((hperm.map Prod.fst).nodup_iff).mp hnodup)
  exact List.eq_of_perm_of_sorted hpp
    (pairwise_key_lt (List.sorted_insertionSort leParamKey p1) hn1)
    (pairwise_key_lt (List.sorted_insertionSort leParamKey p2) hn2)

lemma find?_map_replace {α : Type} (c : Cache α) (k : CacheKey) (v : Int × α)
    (h : c.any (fun e => decide (e.1 = k)) = true) :
    (c.map (fun e => if e.1 = k then (k, v) else e)).find?
      (fun e => decide (e.1 = k)) = some (k, v) := by
  induction c with
  | nil => simp at h
  | cons e es ih =>
    by_cases he : e.1 = k
    · rw [List.map_cons, if_pos he, List.find?_cons_of_pos _ (by simp)]
    · rw [List.map_cons, if_neg he, List.find?_cons_of_neg _ (by simp [he])]
      apply ih
      simpa [List.any_cons, he] using h

lemma cacheGet_cacheSet {α : Type} (c : Cache α) (k : CacheKey) (v : Int × α) :
    cacheGet (cacheSet c k v) k = some v := by
  unfold cacheSet
  split
  case isTrue h =>
    unfold cacheGet
    rw [find?_map_replace c k v h]
    rfl
  case isFalse h =>
    unfold cacheGet
    induction c with
    | nil => simp [List.find?]
    | cons e es ih =>
      have hne : ¬ e.1 = k := by
        intro hk
        exact absurd (by simp [List.any_cons, hk]) h
      rw [List.cons_append, List.find?_cons_of_neg _ (by simp [hne])]
      exact ih (by
        intro ha
        exact h (by simp [List.any_cons, ha]))

lemma makeApiRequest_fetched_cache {α : Type} (ttl : Int) (c0 : Cache α)
    (now : Int) (e : String) (ps : Params) (d : α)
    (h : (makeApiRequest ttl c0 now e ps (some d)).fetched = true) :
    makeApiRequest ttl c0 now e ps (some d) =
      ⟨some d, cacheSet c0 (buildCacheKey e ps) (now, d), true⟩ := by
  unfold makeApiRequest at h ⊢
  cases hg : cacheGet c0 (buildCacheKey e ps) with
  | none => simp [hg]
  | some td =>
    simp only [hg] at h ⊢
    split at h
    · simp at h
    · rename_i hcond
      rw [if_neg hcond]

/-- Claim C3: after a call that fetched and stored payload `d` at time `t`,
a second call with the same endpoint and a key-permuted parameter record at
time `t'` with `t' − t < TTL` issues no fetch and returns the stored
payload with the cache unchanged, while a call at time `t2` with
`t2 − t ≥ TTL` bypasses the stored entry and issues a new fetch. -/
theorem cache_hit_within_ttl {α : Type} (ttl : Int) (c0 : Cache α)
    (t t' t2 : Int) (e : String) (p1 p2 : Params) (d : α) (fr2 fr3 : Option α)
    (hperm : p1.Perm p2) (hnodup : (p1.map Prod.fst).Nodup)
    (hfetched : (makeApiRequest ttl c0 t e p1 (some d)).fetched = true) :
    (t' - t < ttl →
      makeApiRequest ttl (makeApiRequest ttl c0 t e p1 (some d)).cache t' e p2 fr2 =
        ⟨some d, (makeApiRequest ttl c0 t e p1 (some d)).cache, false⟩) ∧
    (ttl ≤ t2 - t →
      (makeApiRequest ttl (makeApiRequest ttl c0 t e p1 (some d)).cache t2 e p2 fr3).fetched
        = true) := by
  have hkey : buildCacheKey e p2 = buildCacheKey e p1 := by
    unfold buildCacheKey
    rw [sortParams_eq_of_perm p1 p2 hperm hnodup]
  have hcache := makeApiRequest_fetched_cache ttl c0 t e p1 d hfetched
  simp only [hcache]
  have hget : cacheGet (cacheSet c0 (buildCacheKey e p1) (t, d))
      (buildCacheKey e p2) = some (t, d) := by
    rw [hkey]
    exact cacheGet_cacheSet c0 _ (t, d)
  constructor
  · intro hlt
    unfold makeApiRequest
    simp only [hget]
    rw [if_pos hlt]
  · intro hge
    unfold makeApiRequest
    simp only [hget]
    rw [if_neg (by omega)]
    cases fr3 <;> rfl

/-- Concrete instance of `cache_hit_within_ttl`: a stored listings payload
is served from the cache one millisecond later without a new fetch. -/
theorem cache_hit_within_ttl_check :
    makeApiRequest 15000
        (makeApiRequest (α := Nat) 15000 [] 0 "/cryptocurrency/listings/latest"
          [("limit", "20")] (some 7)).cache
        1 "/cryptocurrency/listings/latest" [("limit", "20")] none =
      ⟨some 7,
        (makeApiRequest (α := Nat) 15000 [] 0 "/cryptocurrency/listings/latest"
          [("limit", "20")] (some 7)).cache, false⟩ :=
  (cache_hit_within_ttl 15000 [] 0 1 15000 "/cryptocurrency/listings/latest"
      [("limit", "20")] [("limit", "20")] 7 none (some 8)
      (List.Perm.refl _) (by decide) (by decide)).1 (by norm_num)

/-- Claim C8: when the abstracted fetch fails (non-ok status, network
error or malformed payload — all embedded as `fetchResult = none`), a call
that reaches the fetch returns the absent value with the cache unchanged,
so no failure payload is ever stored; for the ranked-listing call the
absent response yields an empty candidate set. -/
theorem fetch_failure_no_cache {α : Type} (ttl : Int) (c : Cache (ListingsResp α))
    (now : Int) (e : String) (ps : Params)
    (hfetched :
      (makeApiRequest ttl c now e ps (none : Option (ListingsResp α))).fetched = true) :
    (makeApiRequest ttl c now e ps (none : Option (ListingsResp α))).result = none ∧
    (makeApiRequest ttl c now e ps (none : Option (ListingsResp α))).cache = c ∧
    listingsData
      (makeApiRequest ttl c now e ps (none : Option (ListingsResp α))).result = [] := by
  unfold makeApiRequest at hfetched ⊢
  cases hg : cacheGet c (buildCacheKey e ps) with
  | none => simp [hg, listingsData]
  | some td =>
    simp only [hg] at hfetched ⊢
    split at hfetched
    · simp at hfetched
    · rename_i hcond
      simp [if_neg hcond, listingsData]

/-- Concrete instance of `fetch_failure_no_cache` on the empty cache. -/
theorem fetch_failure_no_cache_check :
    (makeApiRequest (α := ListingsResp Nat) 15000 [] 0
      "/cryptocurrency/listings/latest" [] none).result = none ∧
    (makeApiRequest (α := ListingsResp Nat) 15000 [] 0
      "/cryptocurrency/listings/latest" [] none).cache = [] ∧
    listingsData (makeApiRequest (α := ListingsResp Nat) 15000 [] 0
      "/cryptocurrency/listings/latest" [] none).result = [] :=
  fetch_failure_no_cache 15000 [] 0 "/cryptocurrency/listings/latest" []
    (by decide)

end CryptoMcp
